import Mathlib

/-!
Verification development for the `jukebox` playlist generator
(`src/jukebox/__main__.py`).

The source is a small Python program.  We embed the pieces of it that the
specification talks about:

* `create_playlist` (lines 114-129): shuffles the track list in place and
  interleaves the ad file after every full chunk of `songs_between_ads`
  tracks.  The shuffle is externalized: our `create_playlist` receives the
  already shuffled list (the output of `random.shuffle`), and
  `create_playlist_call` records the in-place mutation of the caller's list.
  The `while i < len(tracks)` loop advances `i` by `songs_between_ads` per
  iteration, so with `songs_between_ads = 0` and a non-empty list it never
  terminates; we model the loop with explicit fuel, `none` meaning that the
  loop does not terminate.
* `get_average_duration` (lines 89-101): the mutagen duration lookup is
  modelled as an oracle `α → Option ℚ`; the `try/except` plus the
  `if audio and audio.info` guard are the `none` cases of the oracle.
* the cadence computation in `main` (lines 226-230), with Python's
  `round` (round-half-to-even on exact values) modelled on `ℚ`.
* the total-duration loop in `main` (lines 218-224).
* the playlist-file write in `main` (lines 238-242), with paths modelled as
  lists of name components.
* the three selector steps and their `parser.exit` guards in `main`
  (lines 174-200).
-/

namespace Jukebox

/-! ### The `create_playlist` loop (source lines 114-129) -/

/--
The body of one iteration of the `while` loop of `create_playlist` acting on
the `playlist` accumulator: `playlist.extend(chunk)`, then
`if ad_file and len(chunk) == songs_between_ads: playlist.append(ad_file)`.
An absent ad (`ad_file` falsy) is `none`.
-/
def cpStep {α : Type} (ad : Option α) (c : Nat) (acc chunk : List α) : List α :=
  match ad with
  | some a => if chunk.length = c then (acc ++ chunk) ++ [a] else acc ++ chunk
  | none => acc ++ chunk

theorem cpStep_some {α : Type} (a : α) (c : Nat) (acc chunk : List α) :
    cpStep (some a) c acc chunk
      = if chunk.length = c then (acc ++ chunk) ++ [a] else acc ++ chunk := rfl

theorem cpStep_none {α : Type} (c : Nat) (acc chunk : List α) :
    cpStep none c acc chunk = acc ++ chunk := rfl

/--
The `while i < len(tracks)` loop of `create_playlist`.  `fuel` bounds the
number of iterations; `none` means the fuel ran out, i.e. the loop did not
terminate within `fuel` iterations.  `chunk = tracks[i : i + c]` is
`(tracks.drop i).take c`, and `i` advances by `c` per iteration.
-/
def cpGo {α : Type} (tracks : List α) (ad : Option α) (c : Nat) :
    Nat → Nat → List α → Option (List α)
  | 0, _, _ => none
  | fuel + 1, i, acc =>
    if i < tracks.length then
      cpGo tracks ad c fuel (i + c) (cpStep ad c acc (List.take c (List.drop i tracks)))
    else some acc

/--
`create_playlist(tracks, ad_file, songs_between_ads)` after the initial
`random.shuffle(tracks)`: the argument is the already shuffled list.  The
fuel `tracks.length + 1` is enough for every positive cadence, because each
iteration then advances `i` by at least 1; with cadence `0` and a non-empty
list the fuel runs out, faithfully reporting the non-terminating loop.
-/
def create_playlist {α : Type} (tracks : List α) (ad : Option α)
    (songsBetween : Nat) : Option (List α) :=
  cpGo tracks ad songsBetween (tracks.length + 1) 0 []

/--
Models the whole call `create_playlist(tracks, ad_file, c)` including the
in-place `random.shuffle(tracks)` on line 120: `σ` is the permutation of
`tracks` that the shuffle produced.  The first component is the state of the
caller's `tracks` list after the call; the second is the returned playlist.
-/
def create_playlist_call {α : Type} (tracks σ : List α) (ad : Option α)
    (c : Nat) : List α × Option (List α) :=
  (σ, create_playlist σ ad c)

/-! ### Chunk decomposition (specification section 4.4, step 3)

`chunksOfPos c l` partitions `l` into consecutive chunks of `c + 1`
elements, the final chunk possibly shorter.  It is written with a fuel
argument (`chunksGo`) only so that the definition is structurally recursive;
the fuel `l.length` always suffices. -/

def chunksGo {α : Type} (c : Nat) : Nat → List α → List (List α)
  | _, [] => []
  | 0, rest => [rest]
  | fuel + 1, x :: xs => (x :: List.take c xs) :: chunksGo c fuel (List.drop c xs)

/-- Partition of a list into consecutive chunks of `c + 1` elements. -/
def chunksOfPos {α : Type} (c : Nat) (l : List α) : List (List α) :=
  chunksGo c l.length l

/-- What happens to one chunk: a full-sized chunk (length exactly the
cadence `c + 1`) gets the ad appended, a shorter one does not. -/
def adChunk {α : Type} (ad : Option α) (c : Nat) (chunk : List α) : List α :=
  match ad with
  | some a => if chunk.length = c + 1 then chunk ++ [a] else chunk
  | none => chunk

theorem adChunk_some {α : Type} (a : α) (c : Nat) (chunk : List α) :
    adChunk (some a) c chunk
      = if chunk.length = c + 1 then chunk ++ [a] else chunk := rfl

theorem adChunk_none {α : Type} (c : Nat) (chunk : List α) :
    adChunk none c chunk = chunk := rfl

/--
The result of `create_playlist` for cadence `c + 1`, expressed as in the
spec: partition the shuffled list into consecutive chunks, append the ad
after each full-sized chunk, leave a short final chunk without a trailing
ad, and concatenate.
-/
def adJoin {α : Type} (ad : Option α) (c : Nat) (l : List α) : List α :=
  ((chunksOfPos c l).map (adChunk ad c)).flatten

/-! #### Basic facts about `chunksGo` / `chunksOfPos` / `adJoin` -/

theorem chunksGo_nil {α : Type} (c fuel : Nat) :
    chunksGo (α := α) c fuel [] = [] := by
  cases fuel <;> rfl

theorem chunksGo_fuel_irrel {α : Type} (c : Nat) :
    ∀ (f₁ f₂ : Nat) (l : List α), l.length ≤ f₁ → l.length ≤ f₂ →
      chunksGo c f₁ l = chunksGo c f₂ l := by
  intro f₁
  induction f₁ with
  | zero =>
    intro f₂ l h₁ _
    have : l = [] := List.eq_nil_of_length_eq_zero (Nat.le_zero.mp h₁)
    subst this
    rw [chunksGo_nil, chunksGo_nil]
  | succ n ih =>
    intro f₂ l h₁ h₂
    cases l with
    | nil => rw [chunksGo_nil, chunksGo_nil]
    | cons x xs =>
      cases f₂ with
      | zero => simp at h₂
      | succ m =>
        simp only [chunksGo]
        have hlen : (List.drop c xs).length = xs.length - c := List.length_drop c xs
        have hxs₁ : xs.length ≤ n := by simpa using h₁
        have hxs₂ : xs.length ≤ m := by simpa using h₂
        rw [ih m (List.drop c xs) (by omega) (by omega)]

theorem chunksOfPos_nil {α : Type} (c : Nat) : chunksOfPos (α := α) c [] = [] := rfl

theorem chunksOfPos_cons {α : Type} (c : Nat) (x : α) (xs : List α) :
    chunksOfPos c (x :: xs)
      = (x :: List.take c xs) :: chunksOfPos c (List.drop c xs) := by
  unfold chunksOfPos
  have h1 : List.length (x :: xs) = xs.length + 1 := List.length_cons x xs
  rw [h1]
  simp only [chunksGo]
  have hlen : (List.drop c xs).length = xs.length - c := List.length_drop c xs
  rw [chunksGo_fuel_irrel c xs.length (List.drop c xs).length (List.drop c xs)
    (by omega) le_rfl]

theorem adJoin_nil {α : Type} (ad : Option α) (c : Nat) : adJoin ad c [] = [] := rfl

theorem adJoin_cons {α : Type} (ad : Option α) (c : Nat) (x : α) (xs : List α) :
    adJoin ad c (x :: xs)
      = adChunk ad c (x :: List.take c xs) ++ adJoin ad c (List.drop c xs) := by
  unfold adJoin
  rw [chunksOfPos_cons]
  simp only [List.map_cons, List.flatten_cons]

/--
Induction principle following the chunk decomposition: to prove `P` of every
list it is enough to prove it of `[]` and to transfer it from `xs.drop c` to
`x :: xs`.
-/
theorem chunksRec {α : Type} {P : List α → Prop} (c : Nat) (h0 : P [])
    (hstep : ∀ x xs, P (List.drop c xs) → P (x :: xs)) : ∀ l, P l := by
  have key : ∀ (n : Nat) (l : List α), l.length ≤ n → P l := by
    intro n
    induction n with
    | zero =>
      intro l hl
      have : l = [] := List.eq_nil_of_length_eq_zero (Nat.le_zero.mp hl)
      subst this; exact h0
    | succ m ih =>
      intro l hl
      cases l with
      | nil => exact h0
      | cons x xs =>
        apply hstep
        apply ih
        have : (List.drop c xs).length = xs.length - c := List.length_drop c xs
        simp at hl
        omega
  intro l
  exact key l.length l le_rfl

/-! #### The loop computes the chunk decomposition (positive cadence) -/

theorem cpGo_adJoin {α : Type} (tracks : List α) (ad : Option α) (c : Nat) :
    ∀ (fuel i : Nat) (acc : List α), tracks.length - i < fuel →
      cpGo tracks ad (c + 1) fuel i acc
        = some (acc ++ adJoin ad c (List.drop i tracks)) := by
  intro fuel
  induction fuel with
  | zero => intro i acc h; omega
  | succ n ih =>
    intro i acc h
    simp only [cpGo]
    by_cases hi : i < tracks.length
    · rw [if_pos hi]
      have hlen : 0 < (List.drop i tracks).length := by
        rw [List.length_drop]; omega
      obtain ⟨y, ys, hd⟩ : ∃ y ys, List.drop i tracks = y :: ys := by
        cases hcase : List.drop i tracks with
        | nil => rw [hcase] at hlen; simp at hlen
        | cons y ys => exact ⟨y, ys, rfl⟩
      have hdd : List.drop (i + (c + 1)) tracks = List.drop c ys := by
        rw [← List.drop_drop, hd, List.drop_succ_cons]
      rw [ih (i + (c + 1)) _ (by omega)]
      rw [hdd, hd, List.take_succ_cons, adJoin_cons]
      cases ad with
      | none =>
        rw [cpStep_none, adChunk_none]
        simp [List.append_assoc]
      | some a =>
        rw [cpStep_some, adChunk_some]
        by_cases hfull : (y :: List.take c ys).length = c + 1
        · rw [if_pos hfull, if_pos hfull]
          simp [List.append_assoc]
        · rw [if_neg hfull, if_neg hfull]
          simp [List.append_assoc]
    · rw [if_neg hi]
      have hnil : List.drop i tracks = [] :=
        List.drop_eq_nil_of_le (by omega)
      rw [hnil, adJoin_nil, List.append_nil]

/-- For every positive cadence `c + 1`, `create_playlist` terminates and
returns the chunk-and-ad interleaving of its (already shuffled) input. -/
theorem create_playlist_pos {α : Type} (s : List α) (ad : Option α) (c : Nat) :
    create_playlist s ad (c + 1) = some (adJoin ad c s) := by
  have h := cpGo_adJoin s ad c (s.length + 1) 0 [] (by omega)
  simpa using h

/-- With cadence `0` the loop never advances `i`, so it never terminates on a
non-empty list: every fuel bound is exhausted. -/
theorem cpGo_zero {α : Type} (tracks : List α) (ad : Option α) :
    ∀ (fuel i : Nat) (acc : List α), i < tracks.length →
      cpGo tracks ad 0 fuel i acc = none := by
  intro fuel
  induction fuel with
  | zero => intro i acc _; rfl
  | succ n ih =>
    intro i acc hi
    simp only [cpGo]
    rw [if_pos hi, Nat.add_zero]
    exact ih i _ hi

/-- `create_playlist` diverges on any non-empty list when the cadence is 0. -/
theorem create_playlist_zero {α : Type} (s : List α) (ad : Option α)
    (h : s ≠ []) : create_playlist s ad 0 = none := by
  have hlen : 0 < s.length := List.length_pos.mpr h
  exact cpGo_zero s ad (s.length + 1) 0 [] hlen

/-! #### Properties of the chunk-and-ad interleaving -/

/-- With the ad absent the interleaving is the identity: the chunks are just
concatenated back together. -/
theorem adJoin_none {α : Type} (c : Nat) : ∀ l : List α, adJoin none c l = l := by
  apply chunksRec (P := fun l => adJoin none c l = l) c (adJoin_nil none c)
  intro x xs ih
  rw [adJoin_cons, adChunk_none, ih, List.cons_append, List.take_append_drop]

/-- Removing the ad occurrences from the interleaving recovers the shuffled
input, provided the ad value does not occur among the tracks. -/
theorem adJoin_filter {α : Type} [DecidableEq α] (a : α) (c : Nat) :
    ∀ l : List α, a ∉ l →
      (adJoin (some a) c l).filter (fun x => decide (x ≠ a)) = l := by
  apply chunksRec (P := fun l => a ∉ l →
      (adJoin (some a) c l).filter (fun x => decide (x ≠ a)) = l) c
  · intro _; rfl
  · intro x xs ih ha
    have hax : a ≠ x := fun h => ha (h ▸ List.mem_cons_self x xs)
    have hatake : a ∉ List.take c xs := fun h =>
      ha (List.mem_cons_of_mem x (List.take_subset c xs h))
    have hadrop : a ∉ List.drop c xs := fun h =>
      ha (List.mem_cons_of_mem x (List.drop_subset c xs h))
    have hchunk : (x :: List.take c xs).filter (fun b => decide (b ≠ a))
        = x :: List.take c xs := by
      rw [List.filter_eq_self]
      intro b hb
      rcases List.mem_cons.mp hb with hb | hb
      · subst hb; simpa using hax.symm
      · simp only [decide_eq_true_eq]
        intro hba
        exact hatake (hba ▸ hb)
    rw [adJoin_cons, adChunk_some]
    by_cases hfull : (x :: List.take c xs).length = c + 1
    · rw [if_pos hfull]
      rw [List.append_assoc, List.filter_append, hchunk, List.filter_append]
      have hself : ([a] : List α).filter (fun b => decide (b ≠ a)) = [] := by
        simp
      rw [hself, List.nil_append, ih hadrop, List.cons_append,
        List.take_append_drop]
    · rw [if_neg hfull]
      rw [List.filter_append, hchunk, ih hadrop, List.cons_append,
        List.take_append_drop]

/-- The number of ads the interleaving inserts is `⌊length / cadence⌋`,
provided the ad value does not occur among the tracks. -/
theorem adJoin_count {α : Type} [DecidableEq α] (a : α) (c : Nat) :
    ∀ l : List α, a ∉ l →
      List.count a (adJoin (some a) c l) = l.length / (c + 1) := by
  apply chunksRec (P := fun l => a ∉ l →
      List.count a (adJoin (some a) c l) = l.length / (c + 1)) c
  · intro _; simp [adJoin_nil]
  · intro x xs ih ha
    have hax : a ≠ x := fun h => ha (h ▸ List.mem_cons_self x xs)
    have hatake : a ∉ List.take c xs := fun h =>
      ha (List.mem_cons_of_mem x (List.take_subset c xs h))
    have hadrop : a ∉ List.drop c xs := fun h =>
      ha (List.mem_cons_of_mem x (List.drop_subset c xs h))
    have hchunk0 : List.count a (x :: List.take c xs) = 0 :=
      List.count_eq_zero.mpr (by
        intro h
        rcases List.mem_cons.mp h with h | h
        · exact hax h
        · exact hatake h)
    have hlenchunk : (x :: List.take c xs).length = min c xs.length + 1 := by
      simp [List.length_take]
    rw [adJoin_cons, adChunk_some]
    by_cases hfull : (x :: List.take c xs).length = c + 1
    · have hcle : c ≤ xs.length := by
        rw [hlenchunk] at hfull
        omega
      rw [if_pos hfull]
      rw [List.append_assoc, List.count_append, List.count_append, hchunk0,
        ih hadrop, List.count_singleton_self a]
      have hdlen : (List.drop c xs).length = xs.length - c := List.length_drop c xs
      rw [hdlen]
      have hdiv : (xs.length + 1) / (c + 1) = (xs.length - c) / (c + 1) + 1 := by
        rw [Nat.div_eq_sub_div (Nat.succ_pos c) (by omega : c + 1 ≤ xs.length + 1)]
        rw [Nat.succ_sub_succ]
      simp only [List.length_cons, hdiv]
      omega
    · have hclt : xs.length < c := by
        rw [hlenchunk] at hfull
        omega
      rw [if_neg hfull]
      have hnil : List.drop c xs = [] := List.drop_eq_nil_of_le (by omega)
      rw [List.count_append, hchunk0, hnil, adJoin_nil]
      simp only [List.length_cons]
      rw [Nat.div_eq_of_lt (by omega)]
      simp

/-! ### `get_average_duration` (source lines 89-101)

The duration lookup (`MutagenFile(p)` with its `try/except` and the
`if audio and audio.info` guard) is modelled as an oracle `α → Option ℚ`:
`none` exactly when the source appends nothing to `durations` for that path.
The loop accumulates the list `durations` in order, then the function
returns `sum(durations) / len(durations) if durations else 0`. -/

def get_average_duration {α : Type} (oracle : α → Option ℚ) (paths : List α) : ℚ :=
  let durations := paths.foldl
    (fun acc p =>
      match oracle p with
      | some d => acc ++ [d]
      | none => acc) ([] : List ℚ)
  if durations.isEmpty then 0 else durations.sum / (durations.length : ℚ)

theorem durations_foldl_eq {α : Type} (oracle : α → Option ℚ) :
    ∀ (paths : List α) (acc : List ℚ),
      paths.foldl
        (fun acc p =>
          match oracle p with
          | some d => acc ++ [d]
          | none => acc) acc
        = acc ++ paths.filterMap oracle := by
  intro paths
  induction paths with
  | nil => intro acc; simp
  | cons p rest ih =>
    intro acc
    simp only [List.foldl_cons, List.filterMap_cons]
    cases h : oracle p with
    | none => rw [ih acc]
    | some d => rw [ih (acc ++ [d])]; simp

/-! ### The total-duration loop of `main` (source lines 218-224)

`total_duration` starts at `0` and, for each playlist entry, adds
`audio.info.length or 0` when the lookup succeeds and adds nothing (the
`except`/falsy cases) otherwise; adding nothing is the same as adding 0,
so a failed entry contributes exactly 0 and no failure escapes the loop. -/

def total_duration {α : Type} (oracle : α → Option ℚ) (playlist : List α) : ℚ :=
  playlist.foldl
    (fun acc p =>
      match oracle p with
      | some d => acc + d
      | none => acc) 0

theorem total_duration_foldl {α : Type} (oracle : α → Option ℚ) :
    ∀ (playlist : List α) (z : ℚ),
      playlist.foldl
        (fun acc p =>
          match oracle p with
          | some d => acc + d
          | none => acc) z
        = z + (playlist.map (fun p => (oracle p).getD 0)).sum := by
  intro playlist
  induction playlist with
  | nil => intro z; simp
  | cons p rest ih =>
    intro z
    simp only [List.foldl_cons, List.map_cons, List.sum_cons]
    cases h : oracle p with
    | none => rw [ih z]; simp [Option.getD]
    | some d => rw [ih (z + d)]; simp [Option.getD]; ring

/-! ### The cadence computation of `main` (source lines 226-230)

Python's built-in `round` rounds half to even.  On the exact rational values
we model, `pythonRound` is: take the floor, compare the fractional part with
1/2, and break ties toward the even integer. -/

def pythonRound (q : ℚ) : ℤ :=
  if q - (⌊q⌋ : ℚ) < 1 / 2 then ⌊q⌋
  else if (1 / 2 : ℚ) < q - (⌊q⌋ : ℚ) then ⌊q⌋ + 1
  else if ⌊q⌋ % 2 = 0 then ⌊q⌋ else ⌊q⌋ + 1

/--
Lines 226-230 of `main`:
`songs_between_ads = 0` when `avg_duration == 0`, otherwise
`max(1, round((args.ad_every * 60) / avg_duration))`.
-/
def songsBetweenAds (adEvery : ℤ) (avgDuration : ℚ) : ℤ :=
  if avgDuration = 0 then 0
  else max 1 (pythonRound ((adEvery : ℚ) * 60 / avgDuration))

/-! ### The playlist-file write of `main` (source lines 238-242)

A filesystem path is modelled as its list of name components.
`Path.parent` drops the last component (`Path('.')` is the empty list), and
`p.relative_to(q)` strips the prefix `q` from `p`, raising `ValueError`
(our `none`) when `q` is not a prefix of `p`. -/

def pathParent (p : List String) : List String := p.dropLast

def relativeTo : List String → List String → Option (List String)
  | p, [] => some p
  | [], _ :: _ => none
  | a :: p, b :: q => if a = b then relativeTo p q else none

/-- `str(path.relative_to(path.parent.parent))` for one playlist entry. -/
def entryLine (p : List String) : Option String :=
  (relativeTo p (pathParent (pathParent p))).map
    (fun q => String.intercalate "/" q)

/-- The generator expression of line 241, evaluated left to right; the first
`ValueError` would abort the whole write. -/
def buildLines : List (List String) → Option (List String)
  | [] => some []
  | p :: rest =>
    match entryLine p with
    | none => none
    | some line => (buildLines rest).map (fun ls => line :: ls)

/-- The full text written to `jukebox.m3u`:
`'\n'.join(str(path.relative_to(path.parent.parent)) for path in playlist)`. -/
def playlistFileContent (playlist : List (List String)) : Option String :=
  (buildLines playlist).map (fun ls => String.intercalate "\n" ls)

theorem relativeTo_take :
    ∀ (p : List String) (n : Nat), relativeTo p (p.take n) = some (p.drop n) := by
  intro p
  induction p with
  | nil => intro n; cases n <;> rfl
  | cons a p ih =>
    intro n
    cases n with
    | zero => rfl
    | succ m =>
      show relativeTo (a :: p) (a :: p.take m) = some (p.drop m)
      show (if a = a then relativeTo p (p.take m) else none) = some (p.drop m)
      rw [if_pos rfl, ih m]

theorem grandparent_take (p : List String) :
    pathParent (pathParent p) = p.take (p.length - 2) := by
  unfold pathParent
  rw [List.dropLast_eq_take, List.dropLast_eq_take, List.length_take,
    List.take_take]
  congr 1
  omega

theorem entryLine_eq (p : List String) :
    entryLine p = some (String.intercalate "/" (p.drop (p.length - 2))) := by
  unfold entryLine
  rw [grandparent_take, relativeTo_take]
  rfl

theorem buildLines_eq (playlist : List (List String)) :
    buildLines playlist
      = some (playlist.map
          (fun p => String.intercalate "/" (p.drop (p.length - 2)))) := by
  induction playlist with
  | nil => rfl
  | cons p rest ih =>
    show (match entryLine p with
      | none => none
      | some line => (buildLines rest).map (fun ls => line :: ls)) = _
    rw [entryLine_eq, ih]
    rfl

/-! ### The selector pipeline of `main` (source lines 174-200)

The three `select_value` calls are modelled as operator-behaviour functions
from the displayed choices to `Option String` (`none` = the operator quit
with `q`).  Each call is followed by `if not x: parser.exit(1, ...)`;
`parser.exit` terminates the process, so nothing after it runs and no
playlist file is written.  The label-to-path resolution and everything from
line 202 on (track listing, duration estimation, `create_playlist`, the
file write) is abstracted into the continuation `rest`; `mainRun` returns
the written playlist-file content, or `none` when the run terminates
without writing one. -/

structure SelEnv where
  musicDirs : List String
  folderFiles : String → List String
  pickAdsFolder : List String → Option String
  pickAdFile : List String → Option String
  pickMusicFolder : List String → Option String

/-- `if not x: parser.exit(...)`: both `None` and the empty string are
falsy, so either terminates the run. -/
def selGuard (r : Option String) : Option String :=
  match r with
  | none => none
  | some s => if s = "" then none else some s

def mainRun (env : SelEnv) (rest : String → String → String → Option String) :
    Option String :=
  (selGuard (env.pickAdsFolder env.musicDirs)).bind (fun adsFolder =>
    (selGuard (env.pickAdFile (env.folderFiles adsFolder))).bind (fun adFileLabel =>
      (selGuard (env.pickMusicFolder env.musicDirs)).bind (fun musicFolder =>
        rest adsFolder adFileLabel musicFolder)))

/-- The interleaving with a present ad, written the way the spec phrases it:
partition into consecutive chunks and append the ad exactly after the
full-sized ones. -/
theorem adJoin_some_eq {α : Type} (a : α) (c : Nat) (l : List α) :
    adJoin (some a) c l
      = ((chunksOfPos c l).map
          (fun chunk => if chunk.length = c + 1 then chunk ++ [a] else chunk)).flatten := rfl

/-! ## The claims -/

/--
C1, counterexample.  The claim states that with cadence 0 `create_playlist`
returns the shuffled input with no ads inserted; in fact with cadence 0 the
`while` loop never advances `i`, so on the non-empty input `["a"]` (whose
only shuffle is itself) `create_playlist` never returns at all: every fuel
bound is exhausted (`none`), and in particular it does not return
`some ["a"]`.
-/
theorem create_playlist_c1_counterexample :
    create_playlist ["a"] (none : Option String) 0 = none
    ∧ create_playlist ["a"] (none : Option String) 0 ≠ some ["a"] := by
  decide

/--
C1 (amended).  If the ad is absent and the cadence is positive,
`create_playlist` returns exactly the shuffled input sequence with no ad
entries inserted.  With cadence 0 it returns the (empty) shuffled input only
for empty input; on any non-empty input the loop never terminates (in
`main`, the cadence-0 case bypasses `create_playlist` entirely).
-/
theorem create_playlist_absent_ad_or_zero_cadence {α : Type}
    (s : List α) (ad : Option α) (c : Nat) :
    create_playlist s none (c + 1) = some s
    ∧ create_playlist ([] : List α) ad 0 = some []
    ∧ (s ≠ [] → create_playlist s ad 0 = none) := by
  refine ⟨?_, rfl, fun h => create_playlist_zero s ad h⟩
  rw [create_playlist_pos, adJoin_none]

theorem create_playlist_absent_ad_or_zero_cadence_witness :
    create_playlist ["t1", "t2"] (some "ad") 0 = none :=
  (create_playlist_absent_ad_or_zero_cadence ["t1", "t2"] (some "ad") 0).2.2
    (by decide)

/--
C2.  For cadence `c + 1 > 0` with the ad present, `create_playlist`
terminates and returns the shuffled sequence partitioned into consecutive
chunks with the ad appended exactly after each full-sized chunk (a shorter
final chunk gets no trailing ad, as the `if` in the chunk map shows), and
when the ad value does not occur among the tracks the number of ad entries
is exactly `⌊length / cadence⌋`.
-/
theorem create_playlist_ad_count {α : Type} [DecidableEq α]
    (s : List α) (a : α) (c : Nat) (h : a ∉ s) :
    create_playlist s (some a) (c + 1)
      = some (((chunksOfPos c s).map
          (fun chunk => if chunk.length = c + 1 then chunk ++ [a] else chunk)).flatten)
    ∧ List.count a (((chunksOfPos c s).map
          (fun chunk => if chunk.length = c + 1 then chunk ++ [a] else chunk)).flatten)
        = s.length / (c + 1) := by
  rw [← adJoin_some_eq]
  exact ⟨create_playlist_pos s (some a) c, adJoin_count a c s h⟩

theorem create_playlist_ad_count_witness :
    ("x" : String) ∉ ["a", "b", "c", "d", "e", "f", "g"]
    ∧ List.count "x" (((chunksOfPos 2 ["a", "b", "c", "d", "e", "f", "g"]).map
        (fun chunk => if chunk.length = 3 then chunk ++ ["x"] else chunk)).flatten)
      = 2 := by
  refine ⟨by decide, ?_⟩
  have h := (create_playlist_ad_count ["a", "b", "c", "d", "e", "f", "g"] "x" 2
    (by decide)).2
  simpa using h

/--
C3, counterexample.  The claim quantifies over every cadence, but with
cadence 0 and a non-empty track list `create_playlist` never terminates
(the loop never advances `i`), so there is no output whose non-ad entries
could be a permutation of the tracks: the fuel-indexed loop yields `none`
for every fuel bound.
-/
theorem create_playlist_c3_counterexample :
    create_playlist ["b", "a"] (some "x") 0 = none := by
  decide

/--
C3 (amended).  For every positive cadence `c + 1`: for every non-empty
track list, every shuffle output `σ` of it, and every ad value not occurring
among the tracks, `create_playlist` terminates and the non-ad entries of its
output are exactly a permutation of the input tracks — no track dropped or
duplicated.
-/
theorem create_playlist_nonad_perm {α : Type} [DecidableEq α]
    (tracks σ : List α) (a : α) (c : Nat)
    (_hne : tracks ≠ []) (hperm : σ.Perm tracks) (ha : a ∉ σ) :
    create_playlist σ (some a) (c + 1) = some (adJoin (some a) c σ)
    ∧ ((adJoin (some a) c σ).filter (fun x => decide (x ≠ a))).Perm tracks := by
  refine ⟨create_playlist_pos σ (some a) c, ?_⟩
  rw [adJoin_filter a c σ ha]
  exact hperm

theorem create_playlist_nonad_perm_witness :
    (["c", "a", "b"] : List String).Perm ["a", "b", "c"]
    ∧ ((adJoin (some "x") 1 ["c", "a", "b"]).filter
        (fun x => decide (x ≠ "x"))).Perm ["a", "b", "c"] := by
  refine ⟨by decide, ?_⟩
  exact (create_playlist_nonad_perm ["a", "b", "c"] ["c", "a", "b"] "x" 1
    (by decide) (by decide) (by decide)).2

/--
C4.  The cadence computation of `main` (lines 226-230) returns 0 when the
average duration is 0, whatever the ad interval; and for every positive
average duration `d` it returns `max(1, round(x * 60 / d))`, which is at
least 1.
-/
theorem songs_between_ads_spec (x : ℤ) (d : ℚ) :
    songsBetweenAds x 0 = 0
    ∧ (0 < d →
        songsBetweenAds x d = max 1 (pythonRound ((x : ℚ) * 60 / d))
        ∧ 1 ≤ songsBetweenAds x d) := by
  constructor
  · simp [songsBetweenAds]
  · intro hd
    have hne : d ≠ 0 := ne_of_gt hd
    have heq : songsBetweenAds x d = max 1 (pythonRound ((x : ℚ) * 60 / d)) := by
      simp [songsBetweenAds, hne]
    exact ⟨heq, heq ▸ le_max_left 1 _⟩

theorem songs_between_ads_spec_witness :
    (0 : ℚ) < 180 ∧ songsBetweenAds 15 180 = 5 ∧ 1 ≤ songsBetweenAds 15 180 := by
  have h := (songs_between_ads_spec 15 180).2 (by norm_num)
  refine ⟨by norm_num, ?_, h.2⟩
  rw [h.1]
  unfold pythonRound
  norm_num

/--
C5.  `get_average_duration` returns the arithmetic mean of the durations of
exactly those tracks for which the oracle succeeded (failures are skipped),
and returns exactly 0, by the `if durations else 0` guard rather than a
division, when the path list is empty or no track yields a duration.
-/
theorem get_average_duration_spec {α : Type} (oracle : α → Option ℚ)
    (paths : List α) :
    get_average_duration oracle ([] : List α) = 0
    ∧ ((∀ p ∈ paths, oracle p = none) → get_average_duration oracle paths = 0)
    ∧ (paths.filterMap oracle ≠ [] →
        get_average_duration oracle paths
          = (paths.filterMap oracle).sum / ((paths.filterMap oracle).length : ℚ)) := by
  refine ⟨rfl, ?_, ?_⟩
  · intro hall
    simp only [get_average_duration]
    rw [durations_foldl_eq oracle paths []]
    simp only [List.nil_append]
    rw [List.filterMap_eq_nil_iff.mpr hall]
    rfl
  · intro hne
    simp only [get_average_duration]
    rw [durations_foldl_eq oracle paths []]
    simp only [List.nil_append]
    rw [if_neg (by simpa using hne)]

/-- A concrete oracle for the C5 witness: track 1 has duration 100 s, track
2 has duration 200 s, track 3 is unreadable. -/
def oracleC5 : Nat → Option ℚ := fun n =>
  if n = 1 then some 100 else if n = 2 then some 200 else none

theorem get_average_duration_spec_witness :
    List.filterMap oracleC5 [1, 2, 3] ≠ []
    ∧ get_average_duration oracleC5 [1, 2, 3] = 150 := by
  have hfm : List.filterMap oracleC5 [1, 2, 3] = [100, 200] := by
    simp [oracleC5, List.filterMap_cons]
  refine ⟨by simp [hfm], ?_⟩
  have h := (get_average_duration_spec oracleC5 [1, 2, 3]).2.2 (by simp [hfm])
  rw [h, hfm]
  simp only [List.sum_cons, List.sum_nil, List.length_cons, List.length_nil]
  norm_num

/--
C6.  The total-duration loop of `main` sums over every entry of the
playlist, an entry whose duration lookup fails contributing exactly 0 (the
per-entry contributions are in bijection with the entries — nothing is
skipped), and the loop is a total function: no lookup failure propagates.
-/
theorem total_duration_spec {α : Type} (oracle : α → Option ℚ)
    (playlist : List α) :
    total_duration oracle playlist
      = (playlist.map (fun p => (oracle p).getD 0)).sum
    ∧ (playlist.map (fun p => (oracle p).getD 0)).length = playlist.length := by
  constructor
  · unfold total_duration
    rw [total_duration_foldl oracle playlist 0]
    simp
  · simp

/--
C7.  The playlist file content is exactly the entry lines joined by a
single newline — one line per playlist entry, no header, no trailing
metadata — and each line is the entry's path made relative to its
grandparent directory, i.e. its last two name components (`relative_to`
never fails here because `path.parent.parent` is always a prefix).
-/
theorem playlist_file_format (playlist : List (List String)) :
    playlistFileContent playlist
      = some (String.intercalate "\n"
          (playlist.map (fun p => String.intercalate "/" (p.drop (p.length - 2))))) := by
  unfold playlistFileContent
  rw [buildLines_eq]
  rfl

/--
C8.  If the operator cancels at any of the three selector steps — the ads
folder, the ad file, or the music folder — the run terminates at the
corresponding `parser.exit` guard: the continuation `rest` (everything from
the track listing to the file write) never runs and no playlist-file
content is produced, regardless of how the earlier steps went.
-/
theorem selector_cancellation_terminal (env : SelEnv)
    (rest : String → String → String → Option String)
    (h : env.pickAdsFolder env.musicDirs = none
       ∨ (∀ l, env.pickAdFile l = none)
       ∨ (∀ l, env.pickMusicFolder l = none)) :
    mainRun env rest = none := by
  unfold mainRun
  rcases h with h1 | h2 | h3
  · rw [h1]
    rfl
  · cases hg1 : selGuard (env.pickAdsFolder env.musicDirs) with
    | none => rfl
    | some s1 =>
      rw [Option.some_bind, h2 (env.folderFiles s1)]
      rfl
  · cases hg1 : selGuard (env.pickAdsFolder env.musicDirs) with
    | none => rfl
    | some s1 =>
      rw [Option.some_bind]
      cases hg2 : selGuard (env.pickAdFile (env.folderFiles s1)) with
      | none => rfl
      | some s2 =>
        rw [Option.some_bind, h3 env.musicDirs]
        rfl

/-- A concrete environment for the C8 witness: the music directory holds
folders `rock` and `ads`, the first two selections succeed, and the
operator cancels at the music-folder step. -/
def envC8 : SelEnv where
  musicDirs := ["rock", "ads"]
  folderFiles := fun _ => ["ad.mp3"]
  pickAdsFolder := fun _ => some "ads"
  pickAdFile := fun _ => some "ad.mp3"
  pickMusicFolder := fun _ => none

theorem selector_cancellation_terminal_witness :
    envC8.pickAdsFolder envC8.musicDirs = some "ads"
    ∧ envC8.pickAdFile ["ad.mp3"] = some "ad.mp3"
    ∧ mainRun envC8 (fun _ _ _ => some "would-be playlist") = none := by
  refine ⟨rfl, rfl, ?_⟩
  exact selector_cancellation_terminal envC8 (fun _ _ _ => some "would-be playlist")
    (Or.inr (Or.inr (fun _ => rfl)))

/--
C9.  The assembler performs no randomization beyond the shuffle: feeding
`create_playlist` the non-ad subsequence of a previous output (the same
already-shuffled order, with re-shuffling disabled, modelled by the shuffle
being externalized) with the same ad and the same positive cadence
reproduces exactly the same output, ad placements included.
-/
theorem create_playlist_replay {α : Type} [DecidableEq α]
    (s : List α) (a : α) (c : Nat) (h : a ∉ s) :
    create_playlist s (some a) (c + 1) = some (adJoin (some a) c s)
    ∧ create_playlist ((adJoin (some a) c s).filter (fun x => decide (x ≠ a)))
        (some a) (c + 1)
        = some (adJoin (some a) c s) := by
  refine ⟨create_playlist_pos s (some a) c, ?_⟩
  rw [adJoin_filter a c s h]
  exact create_playlist_pos s (some a) c

theorem create_playlist_replay_witness :
    ("x" : String) ∉ ["a", "b", "c"]
    ∧ create_playlist ((adJoin (some "x") 1 ["a", "b", "c"]).filter
        (fun x => decide (x ≠ "x"))) (some "x") 2
        = some (adJoin (some "x") 1 ["a", "b", "c"]) := by
  refine ⟨by decide, ?_⟩
  exact (create_playlist_replay ["a", "b", "c"] "x" 1 (by decide)).2

/--
C10 (implicit frame effect).  `create_playlist` permutes the caller's
`tracks` list in place via `random.shuffle` before building the playlist:
modelling the shuffle outcome as `σ`, after the call the argument list is
exactly `σ` — the same multiset as the input (a permutation of it), but not
in general the input itself, as the concrete instance `[1, 2]` shuffled to
`[2, 1]` shows.
-/
theorem create_playlist_mutates {α : Type} (tracks σ : List α)
    (ad : Option α) (c : Nat) (hperm : σ.Perm tracks) :
    (create_playlist_call tracks σ ad c).1 = σ
    ∧ ((create_playlist_call tracks σ ad c).1).Perm tracks
    ∧ ∃ t₀ s₀ : List Nat, s₀.Perm t₀
        ∧ (create_playlist_call t₀ s₀ (some 7) 1).1 ≠ t₀ := by
  exact ⟨rfl, hperm, ⟨[1, 2], [2, 1], by decide, by decide⟩⟩

theorem create_playlist_mutates_witness :
    (["b", "a"] : List String).Perm ["a", "b"]
    ∧ (create_playlist_call ["a", "b"] ["b", "a"] (some "x") 1).1 = ["b", "a"] := by
  refine ⟨by decide, ?_⟩
  exact (create_playlist_mutates ["a", "b"] ["b", "a"] (some "x") 1 (by decide)).1

end Jukebox
